import Mathlib

/-!
Verification of the WasteNot Kitchen meal-plan solver.

A shallow embedding of `src/backend/server.py` (`solve_meal_plan`): the
integer-linear-program builder (decision variables, objective, constraint
families), the three-tier relaxation pipeline, and the schedule extractor.
Python floats are modelled as rationals; the external MILP solver is
modelled as an oracle `Solver : Model → Status × Assign`.
-/

namespace WasteNot

/-- A decision-variable key `(day, mealType, recipeId)`, mirroring the
Python dict key `x[(d, m, r['id'])]`. -/
abbrev VarKey := ℕ × String × ℤ

/-- A solver assignment: a value for every variable key. -/
abbrev Assign := VarKey → ℚ

/-- The raw value found under `days_until_expiry` before conversion by
`int(round(float(raw)))`: a number (int or float), a numeric string
(which `float` parses to the same number), or a value whose conversion
raises `ValueError`/`TypeError`. -/
inductive ExpiryRaw
  | num (q : ℚ)
  | strNum (q : ℚ)
  | malformed
deriving DecidableEq

/-- The fields of an inventory item supplied as a JSON object:
`qty`, `expiry_weight` and `days_until_expiry` are each optional. -/
structure ItemFields where
  qty : Option ℚ
  expiry_weight : Option ℚ
  days_until_expiry : Option ExpiryRaw
deriving DecidableEq

/-- An inventory value: a JSON object of fields, a bare number, or
anything else (the code treats non-dict non-number values as quantity 0). -/
inductive ItemData
  | dict (f : ItemFields)
  | scalar (q : ℚ)
  | other
deriving DecidableEq

/-- Inventory: the insertion-ordered `inventory` dict as an association list. -/
abbrev Inventory := List (String × ItemData)

/-- A recipe: integer id, display title, and the `ingredients` dict as an
association list from item name to required amount. -/
structure Recipe where
  id : ℤ
  title : String
  ingredients : List (String × ℚ)
deriving DecidableEq

/-- Python dict lookup by key over an association list (keys are unique in
a dict; for an association list the first matching key wins). -/
def dictLookup (name : String) : List (String × α) → Option α
  | [] => none
  | (k, v) :: rest => if k = name then some v else dictLookup name rest

/-- The available quantity `available_qty`: `item_data.get('qty', 0.0)` for a dict,
`float(item_data)` for a number, `0.0` otherwise. -/
def availableQty : ItemData → ℚ
  | .dict f => f.qty.getD 0
  | .scalar q => q
  | .other => 0

/-- The urgency multiplier `expiry_weight`: `item_data.get('expiry_weight', 1.0)` for a dict,
`1.0` otherwise. -/
def expiryWeightOf : ItemData → ℚ
  | .dict f => f.expiry_weight.getD 1
  | _ => 1

/-- Python 3 `round` on a real value: round half to even. -/
def pyRound (q : ℚ) : ℤ :=
  let f := ⌊q⌋
  let frac := q - f
  if frac < 1 / 2 then f
  else if 1 / 2 < frac then f + 1
  else if f % 2 = 0 then f else f + 1

/-- Conversion `int(round(float(raw)))` on the raw `days_until_expiry` value; `none`
when the conversion raises `ValueError` or `TypeError`. -/
def parseExpiry : ExpiryRaw → Option ℤ
  | .num q => some (pyRound q)
  | .strNum q => some (pyRound q)
  | .malformed => none

/-- Computation of `recipe_value`: the loop accumulating
`expiry_weight * amount_needed` over the recipe's ingredients that are
present in inventory. -/
def recipe_value (inv : Inventory) (r : Recipe) : ℚ :=
  r.ingredients.foldl
    (fun acc p =>
      match dictLookup p.1 inv with
      | some item => acc + expiryWeightOf item * p.2
      | none => acc)
    0

/-- The objective terms: one `(coefficient, key)` pair per
`(day, meal, recipe)` triple, with coefficient
`recipe_value * 100.0 + 10000.0 * (days - d + 1)^2`. -/
def objectiveTerms (inv : Inventory) (recipes : List Recipe) (days : ℕ)
    (meals : List String) : List (ℚ × VarKey) :=
  (List.range days).flatMap fun d =>
    meals.flatMap fun m =>
      recipes.map fun r =>
        (recipe_value inv r * 100 + 10000 * (((days - d + 1) ^ 2 : ℕ) : ℚ),
         (d, m, r.id))

/-- A linear constraint of the model: `Σ coeff·x ≤ bound`, or `x = 0`
(the only equality the code ever adds). -/
inductive Constr
  | le (lhs : List (ℚ × VarKey)) (rhs : ℚ)
  | eq0 (v : VarKey)
deriving DecidableEq

/-- Constraint 1: each meal slot holds at most one recipe. -/
def exclusivityConstrs (days : ℕ) (meals : List String)
    (recipes : List Recipe) : List Constr :=
  (List.range days).flatMap fun d =>
    meals.map fun m =>
      Constr.le (recipes.map fun r => ((1 : ℚ), (d, m, r.id))) 1

/-- Constraint 1b: no recipe occupies two meal slots of the same day. -/
def noDupConstrs (days : ℕ) (meals : List String)
    (recipes : List Recipe) : List Constr :=
  (List.range days).flatMap fun d =>
    recipes.map fun r =>
      Constr.le (meals.map fun m => ((1 : ℚ), (d, m, r.id))) 1

/-- Constraint 2 for one item: total usage across all triples is at most
the available quantity. -/
def capacityConstr (recipes : List Recipe) (days : ℕ) (meals : List String)
    (name : String) (item : ItemData) : Constr :=
  Constr.le
    ((List.range days).flatMap fun d =>
      meals.flatMap fun m =>
        recipes.map fun r =>
          ((dictLookup name r.ingredients).getD 0, (d, m, r.id)))
    (availableQty item)

/-- Constraint 2b for one item: the expiry-cutoff family. If the parsed
cutoff `k` is ≤ 0, every variable of a recipe referencing the item is
forced to 0 on every day; if `0 < k < days`, only on days `k, …, days-1`.
A missing field, a cutoff `k ≥ days`, or a malformed value adds nothing. -/
def expiryConstrs (days : ℕ) (meals : List String) (recipes : List Recipe)
    (name : String) (item : ItemData) : List Constr :=
  match item with
  | .dict f =>
    match f.days_until_expiry with
    | none => []
    | some raw =>
      match parseExpiry raw with
      | none => []
      | some k =>
        if k ≤ 0 then
          (List.range days).flatMap fun d =>
            meals.flatMap fun m =>
              (recipes.filter fun r =>
                  (dictLookup name r.ingredients).isSome).map fun r =>
                Constr.eq0 (d, m, r.id)
        else if k < (days : ℤ) then
          (List.range' k.toNat (days - k.toNat)).flatMap fun d =>
            meals.flatMap fun m =>
              (recipes.filter fun r =>
                  (dictLookup name r.ingredients).isSome).map fun r =>
                Constr.eq0 (d, m, r.id)
        else []
  | _ => []

/-- Constraints 2 and 2b, added per inventory item in dict order:
the capacity constraint, then that item's expiry constraints. -/
def invConstrs (inv : Inventory) (recipes : List Recipe) (days : ℕ)
    (meals : List String) : List Constr :=
  inv.flatMap fun p =>
    capacityConstr recipes days meals p.1 p.2 ::
      expiryConstrs days meals recipes p.1 p.2

/-- Constraint 3: no recipe on two consecutive days for the same meal type. -/
def antiRepConstrs (days : ℕ) (meals : List String)
    (recipes : List Recipe) : List Constr :=
  (List.range (days - 1)).flatMap fun d =>
    meals.flatMap fun m =>
      recipes.map fun r =>
        Constr.le [((1 : ℚ), (d, m, r.id)), ((1 : ℚ), (d + 1, m, r.id))] 1

/-- The binary decision-variable keys created for a model. -/
def tripleKeys (days : ℕ) (meals : List String)
    (recipes : List Recipe) : List VarKey :=
  (List.range days).flatMap fun d =>
    meals.flatMap fun m =>
      recipes.map fun r => (d, m, r.id)

/-- One built optimization instance: binary variables, linear objective,
constraint list. -/
structure Model where
  vars : List VarKey
  objective : List (ℚ × VarKey)
  constraints : List Constr
deriving DecidableEq

/-- Build the model the code builds: `withAntiRep = true` for the first
attempt (`prob`), `false` for the relaxed (`prob2`) and shrunken
(`prob3`) rebuilds. -/
def buildModel (inv : Inventory) (recipes : List Recipe) (days : ℕ)
    (meals : List String) (withAntiRep : Bool) : Model :=
  { vars := tripleKeys days meals recipes
    objective := objectiveTerms inv recipes days meals
    constraints :=
      exclusivityConstrs days meals recipes ++
      noDupConstrs days meals recipes ++
      invConstrs inv recipes days meals ++
      (if withAntiRep then antiRepConstrs days meals recipes else []) }

/-- The value of a linear combination under an assignment. -/
def evalLhs (σ : Assign) (lhs : List (ℚ × VarKey)) : ℚ :=
  (lhs.map fun t => t.1 * σ t.2).sum

/-- Whether one constraint holds under an assignment. -/
def constrHolds (σ : Assign) : Constr → Prop
  | .le lhs rhs => evalLhs σ lhs ≤ rhs
  | .eq0 v => σ v = 0

instance (σ : Assign) (c : Constr) : Decidable (constrHolds σ c) := by
  cases c <;> simp only [constrHolds] <;> infer_instance

/-- Whether every constraint of a list holds under an assignment. -/
def SatAll (σ : Assign) (cs : List Constr) : Prop :=
  ∀ c ∈ cs, constrHolds σ c

instance (σ : Assign) (cs : List Constr) : Decidable (SatAll σ cs) :=
  List.decidableBAll _ cs

/-- The assignment takes only the binary values 0 and 1 on the given keys
(the variables are created with `cat='Binary'`). -/
def BinOn (σ : Assign) (vars : List VarKey) : Prop :=
  ∀ v ∈ vars, σ v = 0 ∨ σ v = 1

instance (σ : Assign) (vars : List VarKey) : Decidable (BinOn σ vars) :=
  List.decidableBAll _ vars

/-! ## The relaxation pipeline -/

/-- The `pulp.LpStatus` codes the code inspects. -/
inductive Status
  | Optimal
  | Feasible
  | Infeasible
  | Unbounded
  | NotSolved
  | Undefined
deriving DecidableEq

/-- Success test `status_code in ['Optimal', 'Feasible']`. -/
def statusOk : Status → Bool
  | .Optimal => true
  | .Feasible => true
  | _ => false

/-- The external MILP solver: from a built model, a status and a value for
every variable (`prob.solve()` followed by reading `LpStatus` and
`value(x[...])`). -/
abbrev Solver := Model → Status × Assign

/-- The reduced horizons tried by the shrinking tier:
`range(days - 1, 0, -1)`, i.e. `days-1, days-2, …, 1`. -/
def shrinkAttempts (days : ℕ) : List ℕ :=
  (List.range' 1 (days - 1)).reverse

/-- The shrinking loop: solve the relaxed model over each reduced horizon
in turn, returning the first result whose status is Optimal or Feasible,
or `none` when every horizon fails. -/
def shrinkLoop (S : Solver) (inv : Inventory) (recipes : List Recipe)
    (meals : List String) : List ℕ → Option (Status × ℕ × Assign)
  | [] => none
  | k :: rest =>
    let res := S (buildModel inv recipes k meals false)
    if statusOk res.1 then some (res.1, k, res.2)
    else shrinkLoop S inv recipes meals rest

/-- The whole solve pipeline: full model, then the relaxed model without
anti-repetition, then the shrinking loop; the result is the first
successful attempt's status, effective horizon and assignment, or the
relaxed attempt's status when every attempt fails. -/
def runSolve (S : Solver) (inv : Inventory) (recipes : List Recipe)
    (days : ℕ) (meals : List String) : Status × ℕ × Assign :=
  let r1 := S (buildModel inv recipes days meals true)
  if statusOk r1.1 then (r1.1, days, r1.2)
  else
    let r2 := S (buildModel inv recipes days meals false)
    if statusOk r2.1 then (r2.1, days, r2.2)
    else
      match shrinkLoop S inv recipes meals (shrinkAttempts days) with
      | some out => out
      | none => (r2.1, days, r2.2)

/-! ## Schedule extraction -/

/-- One `{"type": m, "recipeId": id}` entry of the response. -/
structure MealEntry where
  type : String
  recipeId : ℤ
deriving DecidableEq

/-- One `{"day": label, "meals": [...]}` entry of the response. -/
structure DayEntry where
  day : String
  meals : List MealEntry
deriving DecidableEq

/-- The inner `for r in recipes: if value(...) == 1: ...; break` loop:
the id of the first recipe in catalog order whose variable value is 1. -/
def findRecipe (σ : Assign) (d : ℕ) (m : String) : List Recipe → Option ℤ
  | [] => none
  | r :: rest =>
    if σ (d, m, r.id) = 1 then some r.id else findRecipe σ d m rest

/-- The per-day loop over meal types in caller order, appending one entry
per slot that found a recipe. -/
def buildDayMeals (σ : Assign) (d : ℕ) (recipes : List Recipe) :
    List String → List MealEntry
  | [] => []
  | m :: rest =>
    match findRecipe σ d m recipes with
    | some i => ⟨m, i⟩ :: buildDayMeals σ d recipes rest
    | none => buildDayMeals σ d recipes rest

/-- The outer loop over day indices, keeping only days with at least one
meal and labelling them `"Day {d+1}"`. -/
def extractDays (σ : Assign) (meals : List String) (recipes : List Recipe) :
    List ℕ → List DayEntry
  | [] => []
  | d :: rest =>
    let dm := buildDayMeals σ d recipes meals
    if 0 < dm.length then
      ⟨"Day " ++ toString (d + 1), dm⟩ :: extractDays σ meals recipes rest
    else extractDays σ meals recipes rest

/-- Schedule extraction from a solved assignment over the effective horizon. -/
def extractSchedule (σ : Assign) (days : ℕ) (meals : List String)
    (recipes : List Recipe) : List DayEntry :=
  extractDays σ meals recipes (List.range days)

/-- The endpoint's terminal result: the chosen attempt's status, and the
extracted schedule when that status is Optimal or Feasible (otherwise the
error branch returns no schedule). -/
def responseOf (S : Solver) (inv : Inventory) (recipes : List Recipe)
    (days : ℕ) (meals : List String) : Status × Option (List DayEntry) :=
  let out := runSolve S inv recipes days meals
  if statusOk out.1 then
    (out.1, some (extractSchedule out.2.2 out.2.1 meals recipes))
  else (out.1, none)

/-! ## Statement-side definitions

Definitions used only to state the properties being checked; they follow
the specification's words, not the code. -/

/-- The spec's `recipeValue(r)`: the sum over the recipe's ingredients of
`expiryWeight * quantityNeeded` when the item is present in inventory
(default weight 1.0), and 0 for an ingredient naming an absent item. -/
def recipeValueSpec (inv : Inventory) (r : Recipe) : ℚ :=
  (r.ingredients.map fun p =>
    match dictLookup p.1 inv with
    | some item => expiryWeightOf item * p.2
    | none => 0).sum

/-- The coefficient of one variable in a linear term list: the sum of the
coefficients of the terms naming that variable. -/
def coeffOf (terms : List (ℚ × VarKey)) (v : VarKey) : ℚ :=
  ((terms.filter fun t => t.2 = v).map fun t => t.1).sum

/-- The amount of the named item required by the catalog recipe a schedule
entry refers to (0 when the id matches no recipe). -/
def entryUsage (recipes : List Recipe) (name : String)
    (me : MealEntry) : ℚ :=
  ((recipes.find? fun r => r.id = me.recipeId).map fun r =>
    (dictLookup name r.ingredients).getD 0).getD 0

/-- Total consumption of the named item across a whole schedule. -/
def scheduleUsage (recipes : List Recipe) (sched : List DayEntry)
    (name : String) : ℚ :=
  (sched.map fun de => (de.meals.map (entryUsage recipes name)).sum).sum

/-- The (anti-repetition?, horizon) pairs of the pipeline's attempts, in
the order they are tried. -/
def attemptPlans (days : ℕ) : List (Bool × ℕ) :=
  (true, days) :: (false, days) ::
    (shrinkAttempts days).map fun k => (false, k)

/-- The models of the pipeline's attempts, in the order they are solved. -/
def attemptModels (inv : Inventory) (recipes : List Recipe) (days : ℕ)
    (meals : List String) : List Model :=
  (attemptPlans days).map fun p => buildModel inv recipes p.2 meals p.1

/-- The assignment is a true optimum of the model: binary on the model's
variables, satisfying every constraint, and of maximal objective value
among all such assignments. -/
def OptimalFor (σ : Assign) (M : Model) : Prop :=
  BinOn σ M.vars ∧ SatAll σ M.constraints ∧
    ∀ τ : Assign, BinOn τ M.vars → SatAll τ M.constraints →
      evalLhs τ M.objective ≤ evalLhs σ M.objective

/-- Schedule extraction as the claim words it: for each day index in
order, filter the meal types through `List.find?` over the catalog (the
first recipe whose variable value equals 1), and omit days that collected
no meals. -/
def extractScheduleSpec (σ : Assign) (days : ℕ) (meals : List String)
    (recipes : List Recipe) : List DayEntry :=
  (List.range days).filterMap fun d =>
    let dm := meals.filterMap fun m =>
      (recipes.find? fun r => σ (d, m, r.id) = 1).map fun r =>
        (⟨m, r.id⟩ : MealEntry)
    if dm.isEmpty then none else some ⟨"Day " ++ toString (d + 1), dm⟩

/-! ## Concrete instances used by witnesses and counterexamples -/

/-- The recipe of the spec's worked scenario. -/
def omeletRecipe : Recipe := ⟨0, "Omelet", [("eggs", 1)]⟩

/-- The inventory of the spec's worked scenario. -/
def eggsInv : Inventory := [("eggs", .dict ⟨some 2, some 5, none⟩)]

/-- The all-ones assignment: every variable valued 1. -/
def allOnes : Assign := fun _ => 1

/-- The assignment filling only day 0's Breakfast with recipe 0: the
unique optimum of the worked scenario's first model. -/
def pickFirstDay : Assign := fun v => if v = (0, "Breakfast", 0) then 1 else 0

/-- A solver oracle answering Optimal with `pickFirstDay`. -/
def c7Solver : Solver := fun _ => (.Optimal, pickFirstDay)

/-- A solver oracle answering Optimal with the zero assignment. -/
def okSolver : Solver := fun _ => (.Optimal, fun _ => 0)

/-- The recipe of the expiry witness: cereal referencing milk that
expires in 1 day, over a 2-day horizon. -/
def milkRecipe : Recipe := ⟨0, "Cereal", [("milk", 1)]⟩

/-- Inventory holding the expiring milk item. -/
def milkInv : Inventory := [("milk", .dict ⟨some 5, none, some (.num 1)⟩)]

/-! ## Helper lemmas -/

@[simp] theorem satAll_nil (σ : Assign) : SatAll σ [] := by
  intro c hc
  simp at hc

@[simp] theorem satAll_cons {σ : Assign} {c : Constr} {cs : List Constr} :
    SatAll σ (c :: cs) ↔ constrHolds σ c ∧ SatAll σ cs := by
  simp [SatAll]

@[simp] theorem satAll_append {σ : Assign} {l₁ l₂ : List Constr} :
    SatAll σ (l₁ ++ l₂) ↔ SatAll σ l₁ ∧ SatAll σ l₂ := by
  simp [SatAll, or_imp, forall_and]

@[simp] theorem evalLhs_nil (σ : Assign) : evalLhs σ [] = 0 := rfl

@[simp] theorem evalLhs_cons (σ : Assign) (t : ℚ × VarKey)
    (l : List (ℚ × VarKey)) :
    evalLhs σ (t :: l) = t.1 * σ t.2 + evalLhs σ l := by
  simp [evalLhs]

@[simp] theorem evalLhs_append (σ : Assign) (l₁ l₂ : List (ℚ × VarKey)) :
    evalLhs σ (l₁ ++ l₂) = evalLhs σ l₁ + evalLhs σ l₂ := by
  simp [evalLhs]

theorem evalLhs_flatMap (σ : Assign) (l : List α)
    (f : α → List (ℚ × VarKey)) :
    evalLhs σ (l.flatMap f) = (l.map fun a => evalLhs σ (f a)).sum := by
  induction l with
  | nil => rfl
  | cons x xs ih => simp [List.flatMap_cons, ih]

theorem evalLhs_eq_zero {σ : Assign} {l : List (ℚ × VarKey)}
    (h : ∀ t ∈ l, σ t.2 = 0) : evalLhs σ l = 0 := by
  induction l with
  | nil => rfl
  | cons x xs ih =>
    rw [evalLhs_cons, h x (List.mem_cons_self x xs), mul_zero, zero_add]
    exact ih fun t ht => h t (List.mem_cons_of_mem x ht)

theorem mem_tripleKeys {days : ℕ} {meals : List String}
    {recipes : List Recipe} {d : ℕ} {m : String} {r : Recipe}
    (hd : d < days) (hm : m ∈ meals) (hr : r ∈ recipes) :
    (d, m, r.id) ∈ tripleKeys days meals recipes := by
  simp only [tripleKeys, List.mem_flatMap, List.mem_map, List.mem_range]
  exact ⟨d, hd, m, hm, r, hr, rfl⟩

theorem buildModel_constraints (inv : Inventory) (recipes : List Recipe)
    (days : ℕ) (meals : List String) (b : Bool) :
    (buildModel inv recipes days meals b).constraints =
      exclusivityConstrs days meals recipes ++
      noDupConstrs days meals recipes ++
      invConstrs inv recipes days meals ++
      (if b then antiRepConstrs days meals recipes else []) := rfl

theorem mem_exclusivityConstrs {days : ℕ} {meals : List String}
    {recipes : List Recipe} {d : ℕ} {m : String}
    (hd : d < days) (hm : m ∈ meals) :
    Constr.le (recipes.map fun r => ((1 : ℚ), (d, m, r.id))) 1 ∈
      exclusivityConstrs days meals recipes := by
  simp only [exclusivityConstrs, List.mem_flatMap, List.mem_map,
    List.mem_range]
  exact ⟨d, hd, m, hm, rfl⟩

theorem exclusivity_sub_constraints {inv : Inventory}
    {recipes : List Recipe} {days : ℕ} {meals : List String} {b : Bool}
    {c : Constr} (hc : c ∈ exclusivityConstrs days meals recipes) :
    c ∈ (buildModel inv recipes days meals b).constraints := by
  rw [buildModel_constraints]
  exact List.mem_append_left _ (List.mem_append_left _
    (List.mem_append_left _ hc))

theorem invConstrs_sub_constraints {inv : Inventory}
    {recipes : List Recipe} {days : ℕ} {meals : List String} {b : Bool}
    {c : Constr} (hc : c ∈ invConstrs inv recipes days meals) :
    c ∈ (buildModel inv recipes days meals b).constraints := by
  rw [buildModel_constraints]
  exact List.mem_append_left _ (List.mem_append_right _ hc)

theorem capacityConstr_mem_invConstrs {inv : Inventory}
    {recipes : List Recipe} {days : ℕ} {meals : List String}
    {name : String} {item : ItemData} (hin : (name, item) ∈ inv) :
    capacityConstr recipes days meals name item ∈
      invConstrs inv recipes days meals := by
  simp only [invConstrs, List.mem_flatMap]
  exact ⟨(name, item), hin, List.mem_cons_self _ _⟩

theorem expiryConstrs_sub_invConstrs {inv : Inventory}
    {recipes : List Recipe} {days : ℕ} {meals : List String}
    {name : String} {item : ItemData} (hin : (name, item) ∈ inv)
    {c : Constr} (hc : c ∈ expiryConstrs days meals recipes name item) :
    c ∈ invConstrs inv recipes days meals := by
  simp only [invConstrs, List.mem_flatMap]
  exact ⟨(name, item), hin, List.mem_cons_of_mem _ hc⟩

theorem mem_antiRepConstrs_iff {days : ℕ} {meals : List String}
    {recipes : List Recipe} {c : Constr} :
    c ∈ antiRepConstrs days meals recipes ↔
      ∃ d, d + 1 < days ∧ ∃ m ∈ meals, ∃ r ∈ recipes,
        c = Constr.le [((1 : ℚ), (d, m, r.id)), ((1 : ℚ), (d + 1, m, r.id))] 1 := by
  simp only [antiRepConstrs, List.mem_flatMap, List.mem_map, List.mem_range]
  constructor
  · rintro ⟨d, hd, m, hm, r, hr, rfl⟩
    exact ⟨d, by omega, m, hm, r, hr, rfl⟩
  · rintro ⟨d, hd, m, hm, r, hr, rfl⟩
    exact ⟨d, by omega, m, hm, r, hr, rfl⟩

theorem findRecipe_eq_find? (σ : Assign) (d : ℕ) (m : String)
    (recipes : List Recipe) :
    findRecipe σ d m recipes =
      (recipes.find? fun r => σ (d, m, r.id) = 1).map Recipe.id := by
  induction recipes with
  | nil => rfl
  | cons r rs ih =>
    by_cases h : σ (d, m, r.id) = 1
    · simp [findRecipe, h, List.find?_cons_of_pos]
    · simp [findRecipe, h, List.find?_cons_of_neg, ih]

theorem buildDayMeals_eq_filterMap (σ : Assign) (d : ℕ)
    (recipes : List Recipe) (meals : List String) :
    buildDayMeals σ d recipes meals =
      meals.filterMap fun m =>
        (recipes.find? fun r => σ (d, m, r.id) = 1).map fun r =>
          (⟨m, r.id⟩ : MealEntry) := by
  induction meals with
  | nil => rfl
  | cons m ms ih =>
    rw [List.filterMap_cons]
    cases hfind : recipes.find? fun r => σ (d, m, r.id) = 1 with
    | none =>
      have : findRecipe σ d m recipes = none := by
        rw [findRecipe_eq_find?, hfind]; rfl
      simp [buildDayMeals, this, ih]
    | some r =>
      have : findRecipe σ d m recipes = some r.id := by
        rw [findRecipe_eq_find?, hfind]; rfl
      simp [buildDayMeals, this, ih]

theorem extractDays_eq_filterMap (σ : Assign) (meals : List String)
    (recipes : List Recipe) (ds : List ℕ) :
    extractDays σ meals recipes ds =
      ds.filterMap fun d =>
        let dm := buildDayMeals σ d recipes meals
        if dm.isEmpty then none
        else some ⟨"Day " ++ toString (d + 1), dm⟩ := by
  induction ds with
  | nil => rfl
  | cons d rest ih =>
    rw [List.filterMap_cons]
    by_cases h : (buildDayMeals σ d recipes meals).isEmpty
    · have hlen : ¬ 0 < (buildDayMeals σ d recipes meals).length := by
        rw [List.isEmpty_iff] at h
        simp [h]
      simp only [extractDays, if_neg hlen, ih]
      simp [h]
    · have hlen : 0 < (buildDayMeals σ d recipes meals).length := by
        rw [List.isEmpty_iff] at h
        exact List.length_pos.mpr h
      simp only [extractDays, if_pos hlen, ih]
      simp [h]

theorem findRecipe_mem {σ : Assign} {d : ℕ} {m : String}
    {recipes : List Recipe} {i : ℤ}
    (h : findRecipe σ d m recipes = some i) :
    i ∈ recipes.map Recipe.id := by
  induction recipes with
  | nil => simp [findRecipe] at h
  | cons r rs ih =>
    by_cases h1 : σ (d, m, r.id) = 1
    · simp only [findRecipe, if_pos h1, Option.some.injEq] at h
      simp [h]
    · simp only [findRecipe, if_neg h1] at h
      simp [ih h]

theorem buildDayMeals_recipeId_mem {σ : Assign} {d : ℕ}
    {recipes : List Recipe} {meals : List String} {me : MealEntry}
    (h : me ∈ buildDayMeals σ d recipes meals) :
    me.recipeId ∈ recipes.map Recipe.id := by
  induction meals with
  | nil => simp [buildDayMeals] at h
  | cons m ms ih =>
    rw [buildDayMeals] at h
    cases hfind : findRecipe σ d m recipes with
    | none =>
      rw [hfind] at h
      exact ih h
    | some i =>
      rw [hfind] at h
      rcases List.mem_cons.mp h with rfl | hmem
      · exact findRecipe_mem hfind
      · exact ih hmem

theorem mem_extractDays {σ : Assign} {meals : List String}
    {recipes : List Recipe} {ds : List ℕ} {de : DayEntry}
    (h : de ∈ extractDays σ meals recipes ds) :
    ∃ d ∈ ds, de.meals = buildDayMeals σ d recipes meals := by
  induction ds with
  | nil => simp [extractDays] at h
  | cons d rest ih =>
    rw [extractDays] at h
    by_cases hlen : 0 < (buildDayMeals σ d recipes meals).length
    · rw [if_pos hlen] at h
      rcases List.mem_cons.mp h with rfl | hmem
      · exact ⟨d, List.mem_cons_self _ _, rfl⟩
      · obtain ⟨d₂, hd₂, he⟩ := ih hmem
        exact ⟨d₂, List.mem_cons_of_mem _ hd₂, he⟩
    · rw [if_neg hlen] at h
      obtain ⟨d₂, hd₂, he⟩ := ih h
      exact ⟨d₂, List.mem_cons_of_mem _ hd₂, he⟩

theorem buildDayMeals_filter_length (σ : Assign) (d : ℕ)
    (recipes : List Recipe) (meals : List String) (s : String) :
    ((buildDayMeals σ d recipes meals).filter fun me =>
      me.type = s).length ≤ meals.count s := by
  induction meals with
  | nil => simp [buildDayMeals]
  | cons m ms ih =>
    rw [buildDayMeals]
    cases hfind : findRecipe σ d m recipes with
    | none =>
      calc ((buildDayMeals σ d recipes ms).filter fun me =>
              me.type = s).length ≤ ms.count s := ih
        _ ≤ (m :: ms).count s := by
            rw [List.count_cons]
            omega
    | some i =>
      by_cases hms : m = s
      · subst hms
        have hfil : ((⟨m, i⟩ : MealEntry) ::
              buildDayMeals σ d recipes ms).filter
              (fun me => me.type = m) =
            ⟨m, i⟩ :: (buildDayMeals σ d recipes ms).filter
              (fun me => me.type = m) := by
          simp
        rw [hfil, List.count_cons_self, List.length_cons]
        omega
      · have hfil : ((⟨m, i⟩ : MealEntry) ::
              buildDayMeals σ d recipes ms).filter
              (fun me => me.type = s) =
            (buildDayMeals σ d recipes ms).filter
              (fun me => me.type = s) := by
          simp [hms]
        rw [hfil, List.count_cons_of_ne (Ne.symm hms)]
        exact ih

@[simp] theorem coeffOf_nil (v : VarKey) : coeffOf [] v = 0 := rfl

theorem coeffOf_append (l₁ l₂ : List (ℚ × VarKey)) (v : VarKey) :
    coeffOf (l₁ ++ l₂) v = coeffOf l₁ v + coeffOf l₂ v := by
  simp [coeffOf, List.filter_append]

theorem coeffOf_flatMap (l : List α) (f : α → List (ℚ × VarKey))
    (v : VarKey) :
    coeffOf (l.flatMap f) v = (l.map fun a => coeffOf (f a) v).sum := by
  induction l with
  | nil => rfl
  | cons x xs ih => simp [List.flatMap_cons, coeffOf_append, ih]

theorem coeffOf_eq_zero {terms : List (ℚ × VarKey)} {v : VarKey}
    (h : ∀ t ∈ terms, t.2 ≠ v) : coeffOf terms v = 0 := by
  rw [coeffOf, List.filter_eq_nil_iff.mpr]
  · rfl
  · intro t ht
    simp [h t ht]

theorem sum_map_nodup_eq {α : Type} (l : List α) (hnd : l.Nodup) (a : α)
    (ha : a ∈ l) (g : α → ℚ) (h0 : ∀ b ∈ l, b ≠ a → g b = 0) :
    (l.map g).sum = g a := by
  induction l with
  | nil => simp at ha
  | cons x xs ih =>
    rcases List.mem_cons.mp ha with rfl | hmem
    · have hz : (xs.map g).sum = 0 := by
        apply List.sum_eq_zero
        intro q hq
        obtain ⟨b, hb, rfl⟩ := List.mem_map.mp hq
        exact h0 b (List.mem_cons_of_mem _ hb)
          (fun hba => (List.nodup_cons.mp hnd).1 (hba ▸ hb))
      simp [hz]
    · have hx : g x = 0 :=
        h0 x (List.mem_cons_self _ _)
          (fun hxa => (List.nodup_cons.mp hnd).1 (hxa ▸ hmem))
      rw [List.map_cons, List.sum_cons, hx, zero_add]
      exact ih (List.nodup_cons.mp hnd).2 hmem
        fun b hb => h0 b (List.mem_cons_of_mem _ hb)

theorem coeffOf_map_recipes {recipes : List Recipe} (d : ℕ) (m : String)
    (w : Recipe → ℚ) {i : ℤ} {r : Recipe} (hr : r ∈ recipes)
    (hid : r.id = i) (hnd : (recipes.map Recipe.id).Nodup) :
    coeffOf (recipes.map fun x => (w x, (d, m, x.id))) (d, m, i) = w r := by
  induction recipes with
  | nil => simp at hr
  | cons x xs ih =>
    rw [List.map_cons] at hnd
    by_cases hx : x.id = i
    · have hrx : r = x := by
        rcases List.mem_cons.mp hr with rfl | hmem
        · rfl
        · exact absurd (List.mem_map.mpr ⟨r, hmem, hid.trans hx.symm⟩)
            (List.nodup_cons.mp hnd).1
      have hz : coeffOf (xs.map fun y => (w y, (d, m, y.id))) (d, m, i) = 0 := by
        apply coeffOf_eq_zero
        intro t ht
        obtain ⟨y, hy, rfl⟩ := List.mem_map.mp ht
        intro hkey
        have : y.id = i := by
          simpa using congrArg (fun k : VarKey => k.2.2) hkey
        exact (List.nodup_cons.mp hnd).1
          (List.mem_map.mpr ⟨y, hy, this.trans hx.symm⟩)
      rw [List.map_cons, coeffOf, List.filter_cons,
        if_pos (by simp [hx]), List.map_cons, List.sum_cons]
      have : coeffOf (xs.map fun y => (w y, (d, m, y.id))) (d, m, i) =
          ((((xs.map fun y => (w y, (d, m, y.id))).filter fun t =>
            t.2 = (d, m, i)).map fun t => t.1)).sum := rfl
      rw [← this, hz, add_zero, hrx]
    · have hrm : r ∈ xs := by
        rcases List.mem_cons.mp hr with rfl | hmem
        · exact absurd hid hx
        · exact hmem
      rw [List.map_cons, coeffOf, List.filter_cons, if_neg (by simp [hx])]
      exact ih hrm (List.nodup_cons.mp hnd).2

theorem recipe_value_eq_spec (inv : Inventory) (r : Recipe) :
    recipe_value inv r = recipeValueSpec inv r := by
  rw [recipe_value, recipeValueSpec]
  have key : ∀ (l : List (String × ℚ)) (a : ℚ),
      l.foldl (fun acc p =>
        match dictLookup p.1 inv with
        | some item => acc + expiryWeightOf item * p.2
        | none => acc) a =
      a + (l.map fun p =>
        match dictLookup p.1 inv with
        | some item => expiryWeightOf item * p.2
        | none => 0).sum := by
    intro l
    induction l with
    | nil => simp
    | cons p ps ih =>
      intro a
      rw [List.foldl_cons, List.map_cons, List.sum_cons, ih]
      cases dictLookup p.1 inv with
      | none => simp
      | some item => simp [add_assoc]
  rw [key r.ingredients 0, zero_add]

theorem expiryConstrs_dict_eq (days : ℕ) (meals : List String)
    (recipes : List Recipe) (name : String) (f : ItemFields)
    {raw : ExpiryRaw} {k : ℤ} (hraw : f.days_until_expiry = some raw)
    (hparse : parseExpiry raw = some k) :
    expiryConstrs days meals recipes name (.dict f) =
      if k ≤ 0 then
        (List.range days).flatMap fun d =>
          meals.flatMap fun m =>
            (recipes.filter fun r =>
                (dictLookup name r.ingredients).isSome).map fun r =>
              Constr.eq0 (d, m, r.id)
      else if k < (days : ℤ) then
        (List.range' k.toNat (days - k.toNat)).flatMap fun d =>
          meals.flatMap fun m =>
            (recipes.filter fun r =>
                (dictLookup name r.ingredients).isSome).map fun r =>
              Constr.eq0 (d, m, r.id)
      else [] := by
  simp only [expiryConstrs, hraw, hparse]

theorem mem_expiryFamily_iff {meals : List String}
    {recipes : List Recipe} {name : String} {lo hi : ℕ} {d : ℕ}
    {m : String} {i : ℤ} :
    Constr.eq0 (d, m, i) ∈
      ((List.range' lo hi).flatMap fun d2 =>
        meals.flatMap fun m2 =>
          (recipes.filter fun r =>
              (dictLookup name r.ingredients).isSome).map fun r =>
            Constr.eq0 (d2, m2, r.id)) ↔
      (lo ≤ d ∧ d < lo + hi) ∧ m ∈ meals ∧
        ∃ r ∈ recipes, r.id = i ∧ (dictLookup name r.ingredients).isSome := by
  constructor
  · intro h
    simp only [List.mem_flatMap, List.mem_map, List.mem_filter,
      List.mem_range'_1] at h
    obtain ⟨d2, hd2, m2, hm2, r, ⟨hr, hsome⟩, heq⟩ := h
    have hk : (d2, m2, r.id) = ((d, m, i) : VarKey) := by
      injection heq
    obtain ⟨rfl, rfl, hid⟩ : d2 = d ∧ m2 = m ∧ r.id = i := by
      simpa [Prod.ext_iff] using hk
    exact ⟨hd2, hm2, r, hr, hid, by simpa using hsome⟩
  · rintro ⟨⟨hlo, hhi⟩, hm, r, hr, rfl, hsome⟩
    simp only [List.mem_flatMap, List.mem_map, List.mem_filter,
      List.mem_range'_1]
    exact ⟨d, ⟨hlo, hhi⟩, m, hm, r, ⟨hr, by simpa using hsome⟩, rfl⟩

theorem mem_expiryFamily_range_iff {days : ℕ} {meals : List String}
    {recipes : List Recipe} {name : String} {d : ℕ} {m : String} {i : ℤ} :
    Constr.eq0 (d, m, i) ∈
      ((List.range days).flatMap fun d2 =>
        meals.flatMap fun m2 =>
          (recipes.filter fun r =>
              (dictLookup name r.ingredients).isSome).map fun r =>
            Constr.eq0 (d2, m2, r.id)) ↔
      d < days ∧ m ∈ meals ∧
        ∃ r ∈ recipes, r.id = i ∧ (dictLookup name r.ingredients).isSome := by
  rw [List.range_eq_range']
  rw [mem_expiryFamily_iff]
  constructor
  · rintro ⟨⟨_, hd⟩, h⟩
    exact ⟨by omega, h⟩
  · rintro ⟨hd, h⟩
    exact ⟨⟨Nat.zero_le _, by omega⟩, h⟩

theorem recipe_value_middle (pre post : Inventory) (name : String)
    (a b : ItemData) (hw : expiryWeightOf a = expiryWeightOf b)
    (r : Recipe) :
    recipe_value (pre ++ (name, a) :: post) r =
      recipe_value (pre ++ (name, b) :: post) r := by
  rw [recipe_value_eq_spec, recipe_value_eq_spec, recipeValueSpec,
    recipeValueSpec]
  congr 1
  apply List.map_congr_left
  intro p _
  induction pre with
  | nil =>
    simp only [List.nil_append, dictLookup]
    by_cases h : name = p.1
    · rw [if_pos h, if_pos h]
      simp [hw]
    · rw [if_neg h, if_neg h]
  | cons x xs ih =>
    simp only [List.cons_append, dictLookup]
    by_cases h : x.1 = p.1
    · rw [if_pos h, if_pos h]
    · rw [if_neg h, if_neg h]
      exact ih

theorem buildModel_malformed_eq (pre post : Inventory)
    (recipes : List Recipe) (days : ℕ) (meals : List String) (b : Bool)
    (name : String) (qv wv : Option ℚ) :
    buildModel (pre ++ (name, .dict ⟨qv, wv, some .malformed⟩) :: post)
        recipes days meals b =
      buildModel (pre ++ (name, .dict ⟨qv, wv, none⟩) :: post)
        recipes days meals b := by
  have hrv : ∀ r : Recipe,
      recipe_value (pre ++ (name, ItemData.dict ⟨qv, wv, some .malformed⟩) :: post) r =
      recipe_value (pre ++ (name, ItemData.dict ⟨qv, wv, none⟩) :: post) r :=
    recipe_value_middle pre post name _ _ rfl
  have hinv : invConstrs
      (pre ++ (name, ItemData.dict ⟨qv, wv, some .malformed⟩) :: post)
        recipes days meals =
      invConstrs (pre ++ (name, ItemData.dict ⟨qv, wv, none⟩) :: post)
        recipes days meals := by
    simp only [invConstrs, List.flatMap_append, List.flatMap_cons]
    rfl
  simp only [buildModel, Model.mk.injEq]
  refine ⟨trivial, ?_, by rw [hinv]⟩
  simp only [objectiveTerms, hrv]

theorem runSolve_malformed_eq (S : Solver) (pre post : Inventory)
    (recipes : List Recipe) (days : ℕ) (meals : List String)
    (name : String) (qv wv : Option ℚ) :
    runSolve S (pre ++ (name, .dict ⟨qv, wv, some .malformed⟩) :: post)
        recipes days meals =
      runSolve S (pre ++ (name, .dict ⟨qv, wv, none⟩) :: post)
        recipes days meals := by
  have hloop : ∀ ks : List ℕ,
      shrinkLoop S (pre ++ (name, .dict ⟨qv, wv, some .malformed⟩) :: post)
        recipes meals ks =
      shrinkLoop S (pre ++ (name, .dict ⟨qv, wv, none⟩) :: post)
        recipes meals ks := by
    intro ks
    induction ks with
    | nil => rfl
    | cons k rest ih =>
      simp only [shrinkLoop,
        buildModel_malformed_eq pre post recipes k meals false name qv wv,
        ih]
  simp only [runSolve,
    buildModel_malformed_eq pre post recipes days meals true name qv wv,
    buildModel_malformed_eq pre post recipes days meals false name qv wv,
    hloop]

theorem shrinkLoop_cons (S : Solver) (inv : Inventory)
    (recipes : List Recipe) (meals : List String) (k : ℕ)
    (rest : List ℕ) :
    shrinkLoop S inv recipes meals (k :: rest) =
      if statusOk (S (buildModel inv recipes k meals false)).1 then
        some ((S (buildModel inv recipes k meals false)).1, k,
          (S (buildModel inv recipes k meals false)).2)
      else shrinkLoop S inv recipes meals rest := rfl

theorem shrinkLoop_eq_none {S : Solver} {inv : Inventory}
    {recipes : List Recipe} {meals : List String} {ks : List ℕ}
    (h : ∀ k ∈ ks,
      statusOk (S (buildModel inv recipes k meals false)).1 = false) :
    shrinkLoop S inv recipes meals ks = none := by
  induction ks with
  | nil => rfl
  | cons k rest ih =>
    rw [shrinkLoop_cons,
      if_neg (by simp [h k (List.mem_cons_self k rest)])]
    exact ih fun k2 hk2 => h k2 (List.mem_cons_of_mem _ hk2)

theorem shrinkLoop_first {S : Solver} {inv : Inventory}
    {recipes : List Recipe} {meals : List String} {ks : List ℕ} {k : ℕ}
    (hsort : ks.Pairwise (· > ·)) (hk : k ∈ ks)
    (hfail : ∀ k2 ∈ ks, k < k2 →
      statusOk (S (buildModel inv recipes k2 meals false)).1 = false)
    (hok : statusOk (S (buildModel inv recipes k meals false)).1 = true) :
    shrinkLoop S inv recipes meals ks =
      some ((S (buildModel inv recipes k meals false)).1, k,
        (S (buildModel inv recipes k meals false)).2) := by
  induction ks with
  | nil => simp at hk
  | cons x xs ih =>
    rcases List.mem_cons.mp hk with rfl | hmem
    · rw [shrinkLoop_cons, if_pos hok]
    · have hgt : x > k := (List.pairwise_cons.mp hsort).1 k hmem
      have hxfail := hfail x (List.mem_cons_self _ _) hgt
      rw [shrinkLoop_cons, if_neg (by simp [hxfail])]
      exact ih (List.pairwise_cons.mp hsort).2 hmem
        fun k2 hk2 hlt => hfail k2 (List.mem_cons_of_mem _ hk2) hlt

theorem shrinkLoop_congr {S S2 : Solver} {inv : Inventory}
    {recipes : List Recipe} {meals : List String} {ks : List ℕ}
    (h : ∀ k ∈ ks, S (buildModel inv recipes k meals false) =
      S2 (buildModel inv recipes k meals false)) :
    shrinkLoop S inv recipes meals ks =
      shrinkLoop S2 inv recipes meals ks := by
  induction ks with
  | nil => rfl
  | cons k rest ih =>
    rw [shrinkLoop_cons, shrinkLoop_cons,
      h k (List.mem_cons_self _ _)]
    exact congrArg _ (ih fun k2 hk2 => h k2 (List.mem_cons_of_mem _ hk2))

theorem shrinkAttempts_sorted (days : ℕ) :
    (shrinkAttempts days).Pairwise (· > ·) := by
  rw [shrinkAttempts, List.pairwise_reverse]
  exact List.pairwise_lt_range' 1 (days - 1)

theorem mem_shrinkAttempts {days k : ℕ} :
    k ∈ shrinkAttempts days ↔ 1 ≤ k ∧ k < days := by
  rw [shrinkAttempts, List.mem_reverse, List.mem_range'_1]
  omega

theorem runSolve_eq (S : Solver) (inv : Inventory)
    (recipes : List Recipe) (days : ℕ) (meals : List String) :
    runSolve S inv recipes days meals =
      if statusOk (S (buildModel inv recipes days meals true)).1 then
        ((S (buildModel inv recipes days meals true)).1, days,
          (S (buildModel inv recipes days meals true)).2)
      else if statusOk (S (buildModel inv recipes days meals false)).1 then
        ((S (buildModel inv recipes days meals false)).1, days,
          (S (buildModel inv recipes days meals false)).2)
      else
        match shrinkLoop S inv recipes meals (shrinkAttempts days) with
        | some out => out
        | none => ((S (buildModel inv recipes days meals false)).1, days,
            (S (buildModel inv recipes days meals false)).2) := rfl

theorem expiryConstrs_shape {days : ℕ} {meals : List String}
    {recipes : List Recipe} {name : String} {item : ItemData} {c : Constr}
    (hc : c ∈ expiryConstrs days meals recipes name item) :
    ∃ v, c = Constr.eq0 v := by
  cases item with
  | scalar q => simp [expiryConstrs] at hc
  | other => simp [expiryConstrs] at hc
  | dict f =>
    cases hraw : f.days_until_expiry with
    | none =>
      simp [expiryConstrs, hraw] at hc
    | some raw =>
      cases hparse : parseExpiry raw with
      | none =>
        simp [expiryConstrs, hraw, hparse] at hc
      | some k =>
        rw [expiryConstrs_dict_eq days meals recipes name f hraw hparse]
          at hc
        by_cases hk : k ≤ 0
        · rw [if_pos hk] at hc
          simp only [List.mem_flatMap, List.mem_map] at hc
          obtain ⟨d, _, m, _, r, _, rfl⟩ := hc
          exact ⟨_, rfl⟩
        · rw [if_neg hk] at hc
          by_cases hkd : k < (days : ℤ)
          · rw [if_pos hkd] at hc
            simp only [List.mem_flatMap, List.mem_map] at hc
            obtain ⟨d, _, m, _, r, _, rfl⟩ := hc
            exact ⟨_, rfl⟩
          · rw [if_neg hkd] at hc
            simp at hc

theorem buildModel_constr_shape {inv : Inventory} {recipes : List Recipe}
    {days : ℕ} {meals : List String} {b : Bool} {c : Constr}
    (hc : c ∈ (buildModel inv recipes days meals b).constraints) :
    (∃ lhs, c = Constr.le lhs 1) ∨
    (∃ lhs, ∃ p ∈ inv, c = Constr.le lhs (availableQty p.2)) ∨
    (∃ v, c = Constr.eq0 v) := by
  rw [buildModel_constraints] at hc
  rcases List.mem_append.mp hc with hc1 | hanti
  · rcases List.mem_append.mp hc1 with hc2 | hcinv
    · rcases List.mem_append.mp hc2 with hexc | hdup
      · simp only [exclusivityConstrs, List.mem_flatMap, List.mem_map,
          List.mem_range] at hexc
        obtain ⟨d, _, m, _, rfl⟩ := hexc
        exact Or.inl ⟨_, rfl⟩
      · simp only [noDupConstrs, List.mem_flatMap, List.mem_map,
          List.mem_range] at hdup
        obtain ⟨d, _, r, _, rfl⟩ := hdup
        exact Or.inl ⟨_, rfl⟩
    · simp only [invConstrs, List.mem_flatMap] at hcinv
      obtain ⟨p, hp, hmem⟩ := hcinv
      rcases List.mem_cons.mp hmem with rfl | hexp
      · exact Or.inr (Or.inl ⟨_, p, hp, rfl⟩)
      · exact Or.inr (Or.inr (expiryConstrs_shape hexp))
  · cases b with
    | true =>
      simp only [if_true] at hanti
      obtain ⟨d, _, m, _, r, _, rfl⟩ :=
        (by simpa only [antiRepConstrs, List.mem_flatMap, List.mem_map,
          List.mem_range] using hanti :
          ∃ d, d < days - 1 ∧ ∃ m ∈ meals, ∃ r ∈ recipes,
            Constr.le [((1 : ℚ), (d, m, r.id)),
              ((1 : ℚ), (d + 1, m, r.id))] 1 = c)
      exact Or.inl ⟨_, rfl⟩
    | false => simp at hanti

theorem evalLhs_zeroAssign (l : List (ℚ × VarKey)) :
    evalLhs (fun _ => (0 : ℚ)) l = 0 :=
  evalLhs_eq_zero fun _ _ => rfl

theorem zero_satisfies {inv : Inventory} {recipes : List Recipe}
    {days : ℕ} {meals : List String} {b : Bool}
    (hq : ∀ p ∈ inv, 0 ≤ availableQty p.2) :
    SatAll (fun _ => (0 : ℚ))
      (buildModel inv recipes days meals b).constraints := by
  intro c hc
  rcases buildModel_constr_shape hc with ⟨lhs, rfl⟩ | ⟨lhs, p, hp, rfl⟩ |
    ⟨v, rfl⟩
  · simp only [constrHolds, evalLhs_zeroAssign]
    exact zero_le_one
  · simp only [constrHolds, evalLhs_zeroAssign]
    exact hq p hp
  · rfl

theorem findRecipe_eq_none_iff {σ : Assign} {d : ℕ} {m : String}
    {recipes : List Recipe} :
    findRecipe σ d m recipes = none ↔
      ∀ r ∈ recipes, σ (d, m, r.id) ≠ 1 := by
  induction recipes with
  | nil => simp [findRecipe]
  | cons r rs ih =>
    by_cases h : σ (d, m, r.id) = 1
    · simp [findRecipe, h]
    · simp [findRecipe, h, ih]

theorem findRecipe_split {σ : Assign} {d : ℕ} {m : String}
    {recipes : List Recipe} {i : ℤ}
    (h : findRecipe σ d m recipes = some i) :
    ∃ pre ri post, recipes = pre ++ ri :: post ∧ ri.id = i ∧
      σ (d, m, ri.id) = 1 ∧ ∀ r ∈ pre, σ (d, m, r.id) ≠ 1 := by
  induction recipes with
  | nil => simp [findRecipe] at h
  | cons r rs ih =>
    by_cases h1 : σ (d, m, r.id) = 1
    · rw [findRecipe, if_pos h1, Option.some.injEq] at h
      exact ⟨[], r, rs, rfl, h, h1, by simp⟩
    · rw [findRecipe, if_neg h1] at h
      obtain ⟨pre, ri, post, hrec, hid, hσ, hpre⟩ := ih h
      refine ⟨r :: pre, ri, post, by rw [hrec]; rfl, hid, hσ, ?_⟩
      intro x hx
      rcases List.mem_cons.mp hx with rfl | hxm
      · exact h1
      · exact hpre x hxm

theorem slot_usage_eq {σ : Assign} {d : ℕ} {m : String}
    {recipes : List Recipe} {name : String}
    (hbin : ∀ r ∈ recipes, σ (d, m, r.id) = 0 ∨ σ (d, m, r.id) = 1)
    (hexcl : evalLhs σ (recipes.map fun r => ((1 : ℚ), (d, m, r.id))) ≤ 1) :
    (match findRecipe σ d m recipes with
     | some i => entryUsage recipes name ⟨m, i⟩
     | none => 0) =
    evalLhs σ (recipes.map fun r =>
      ((dictLookup name r.ingredients).getD 0, (d, m, r.id))) := by
  cases hfind : findRecipe σ d m recipes with
  | none =>
    have hall := findRecipe_eq_none_iff.mp hfind
    rw [evalLhs_eq_zero]
    intro t ht
    obtain ⟨r, hr, rfl⟩ := List.mem_map.mp ht
    rcases hbin r hr with h0 | h1
    · exact h0
    · exact absurd h1 (hall r hr)
  | some i =>
    obtain ⟨pre, ri, post, hrec, hid, hσ, hpre⟩ := findRecipe_split hfind
    subst hrec
    have hpre0 : ∀ r ∈ pre, σ (d, m, r.id) = 0 := by
      intro r hr
      rcases hbin r (List.mem_append_left _ hr) with h0 | h1
      · exact h0
      · exact absurd h1 (hpre r hr)
    -- decompose the exclusivity sum
    rw [List.map_append, List.map_cons, evalLhs_append, evalLhs_cons]
      at hexcl
    rw [evalLhs_eq_zero (fun t ht => by
      obtain ⟨r, hr, rfl⟩ := List.mem_map.mp ht
      exact hpre0 r hr)] at hexcl
    rw [hσ] at hexcl
    have hpostsum : evalLhs σ (post.map fun r => ((1 : ℚ), (d, m, r.id))) ≤ 0 := by
      norm_num at hexcl
      linarith
    have hpost0 : ∀ r ∈ post, σ (d, m, r.id) = 0 := by
      intro r hr
      rcases hbin r (List.mem_append_right _
        (List.mem_cons_of_mem _ hr)) with h0 | h1
      · exact h0
      · exfalso
        have hmem : (1 : ℚ) ∈ (post.map fun r =>
            ((1 : ℚ), (d, m, r.id))).map fun t => t.1 * σ t.2 := by
          simp only [List.map_map, List.mem_map]
          exact ⟨r, hr, by simp [Function.comp, h1]⟩
        have hnn : ∀ x ∈ (post.map fun r =>
            ((1 : ℚ), (d, m, r.id))).map fun t => t.1 * σ t.2, 0 ≤ x := by
          intro x hx
          simp only [List.map_map, List.mem_map] at hx
          obtain ⟨r2, hr2, rfl⟩ := hx
          rcases hbin r2 (List.mem_append_right _
            (List.mem_cons_of_mem _ hr2)) with h2 | h2 <;>
            simp [Function.comp, h2]
        have := List.single_le_sum hnn _ hmem
        rw [evalLhs] at hpostsum
        linarith
    -- the right-hand side collapses to the amount of the found recipe
    rw [List.map_append, List.map_cons, evalLhs_append, evalLhs_cons,
      evalLhs_eq_zero (fun t ht => by
        obtain ⟨r, hr, rfl⟩ := List.mem_map.mp ht
        exact hpre0 r hr),
      evalLhs_eq_zero (fun t ht => by
        obtain ⟨r, hr, rfl⟩ := List.mem_map.mp ht
        exact hpost0 r hr), hσ]
    -- the left-hand side: find? skips pre and stops at ri
    have hfp : (pre.find? fun r => r.id = i) = none := by
      rw [List.find?_eq_none]
      intro r hr
      simp only [decide_eq_true_eq]
      intro heq
      exact hpre r hr (by rw [heq, ← hid]; exact hσ)
    have hfind2 : ((pre ++ ri :: post).find? fun r => r.id = i) = some ri := by
      rw [List.find?_append, hfp, Option.none_or,
        List.find?_cons_of_pos _ (by simp [hid])]
    simp only [entryUsage, hfind2, Option.map_some', Option.getD_some]
    ring

theorem scheduleUsage_extractDays (σ : Assign) (recipes : List Recipe)
    (meals : List String) (name : String) (ds : List ℕ) :
    scheduleUsage recipes (extractDays σ meals recipes ds) name =
      (ds.map fun d => ((buildDayMeals σ d recipes meals).map
        (entryUsage recipes name)).sum).sum := by
  induction ds with
  | nil => rfl
  | cons d rest ih =>
    rw [extractDays, List.map_cons, List.sum_cons]
    by_cases hlen : 0 < (buildDayMeals σ d recipes meals).length
    · rw [if_pos hlen]
      rw [scheduleUsage, List.map_cons, List.sum_cons, ← ih]
      rfl
    · rw [if_neg hlen]
      have hnil : buildDayMeals σ d recipes meals = [] := by
        rcases List.eq_nil_or_concat (buildDayMeals σ d recipes meals)
          with h | ⟨l, a, h⟩
        · exact h
        · exfalso
          apply hlen
          rw [h]
          simp
      rw [hnil]
      simp only [List.map_nil, List.sum_nil, zero_add]
      exact ih

theorem dayUsage_eq (σ : Assign) (d : ℕ) (recipes : List Recipe)
    (name : String) (meals : List String) :
    ((buildDayMeals σ d recipes meals).map
      (entryUsage recipes name)).sum =
    (meals.map fun m =>
      (match findRecipe σ d m recipes with
       | some i => entryUsage recipes name ⟨m, i⟩
       | none => (0 : ℚ))).sum := by
  induction meals with
  | nil => rfl
  | cons m ms ih =>
    rw [buildDayMeals, List.map_cons, List.sum_cons]
    cases hfind : findRecipe σ d m recipes with
    | none =>
      rw [ih]
      simp
    | some i =>
      rw [List.map_cons, List.sum_cons, ih]

/-- Claim C4: For every assignment that is binary on the model's variables
and satisfies the built model's constraints, and for every inventory
item, the total amount of the item required by the recipes of the
extracted schedule is at most the item's available quantity. -/
theorem C4_inventory_bound (inv : Inventory) (recipes : List Recipe)
    (days : ℕ) (meals : List String) (b : Bool) (σ : Assign)
    (name : String) (item : ItemData)
    (hbin : BinOn σ (buildModel inv recipes days meals b).vars)
    (hsat : SatAll σ (buildModel inv recipes days meals b).constraints)
    (hin : (name, item) ∈ inv) :
    scheduleUsage recipes (extractSchedule σ days meals recipes) name ≤
      availableQty item := by
  have hcap := hsat _ (invConstrs_sub_constraints
    (capacityConstr_mem_invConstrs hin))
  simp only [capacityConstr, constrHolds] at hcap
  have hkey : scheduleUsage recipes
      (extractSchedule σ days meals recipes) name =
      evalLhs σ ((List.range days).flatMap fun d =>
        meals.flatMap fun m =>
          recipes.map fun r =>
            ((dictLookup name r.ingredients).getD 0, (d, m, r.id))) := by
    rw [extractSchedule, scheduleUsage_extractDays]
    simp only [evalLhs_flatMap]
    apply congrArg List.sum
    apply List.map_congr_left
    intro d hd
    rw [dayUsage_eq]
    apply congrArg List.sum
    apply List.map_congr_left
    intro m hm
    exact slot_usage_eq
      (fun r hr => hbin _ (mem_tripleKeys (List.mem_range.mp hd) hm hr))
      (by
        have := hsat _ (exclusivity_sub_constraints
          (mem_exclusivityConstrs (List.mem_range.mp hd) hm))
        simpa only [constrHolds] using this)
  rw [hkey]
  exact hcap

theorem c7_obj_eq :
    (buildModel eggsInv [omeletRecipe] 2 ["Breakfast"] true).objective =
      [((90500 : ℚ), (0, "Breakfast", 0)),
       ((40500 : ℚ), (1, "Breakfast", 0))] := by
  have hr2 : List.range 2 = [0, 1] := rfl
  simp [buildModel, objectiveTerms, hr2, recipe_value, dictLookup,
    eggsInv, omeletRecipe, expiryWeightOf]
  norm_num

theorem c7_eval_pick :
    evalLhs pickFirstDay
      (buildModel eggsInv [omeletRecipe] 2 ["Breakfast"] true).objective =
      90500 := by
  rw [c7_obj_eq]
  simp [evalLhs, pickFirstDay]

theorem pickFirstDay_sat :
    SatAll pickFirstDay
      (buildModel eggsInv [omeletRecipe] 2 ["Breakfast"] true).constraints := by
  have hlist : (buildModel eggsInv [omeletRecipe] 2
      ["Breakfast"] true).constraints =
    [Constr.le [(1, (0, "Breakfast", 0))] 1,
     Constr.le [(1, (1, "Breakfast", 0))] 1,
     Constr.le [(1, (0, "Breakfast", 0))] 1,
     Constr.le [(1, (1, "Breakfast", 0))] 1,
     Constr.le [(1, (0, "Breakfast", 0)), (1, (1, "Breakfast", 0))] 2,
     Constr.le [(1, (0, "Breakfast", 0)), (1, (1, "Breakfast", 0))] 1] := by
    rfl
  rw [hlist]
  intro c hc
  fin_cases hc <;> simp [constrHolds, evalLhs, pickFirstDay]

theorem c7_sat_antiRep {σ : Assign}
    (hsat : SatAll σ
      (buildModel eggsInv [omeletRecipe] 2 ["Breakfast"] true).constraints) :
    σ (0, "Breakfast", 0) + σ (1, "Breakfast", 0) ≤ 1 := by
  have h := hsat (Constr.le [((1 : ℚ), (0, "Breakfast", 0)),
    ((1 : ℚ), (1, "Breakfast", 0))] 1) (by decide)
  simp [constrHolds, evalLhs] at h
  linarith

theorem c7_max (τ : Assign)
    (hbin : BinOn τ
      (buildModel eggsInv [omeletRecipe] 2 ["Breakfast"] true).vars)
    (hsat : SatAll τ
      (buildModel eggsInv [omeletRecipe] 2 ["Breakfast"] true).constraints) :
    evalLhs τ (buildModel eggsInv [omeletRecipe] 2
      ["Breakfast"] true).objective ≤ 90500 := by
  have h0 := hbin (0, "Breakfast", 0) (by decide)
  have h1 := hbin (1, "Breakfast", 0) (by decide)
  have hsum := c7_sat_antiRep hsat
  rw [c7_obj_eq]
  simp only [evalLhs, List.map_cons, List.map_nil, List.sum_cons,
    List.sum_nil]
  rcases h0 with h0 | h0 <;> rcases h1 with h1 | h1 <;>
    rw [h0, h1] <;> norm_num
  rw [h0, h1] at hsum
  norm_num at hsum

theorem extract_pickFirst {σ : Assign} (ha : σ (0, "Breakfast", 0) = 1)
    (hb : σ (1, "Breakfast", 0) = 0) :
    extractSchedule σ 2 ["Breakfast"] [omeletRecipe] =
      [⟨"Day 1", [⟨"Breakfast", 0⟩]⟩] := by
  have hr2 : List.range 2 = [0, 1] := rfl
  have h1 : findRecipe σ 0 "Breakfast" [omeletRecipe] = some 0 := by
    simp [findRecipe, omeletRecipe, ha]
  have h2 : findRecipe σ 1 "Breakfast" [omeletRecipe] = none := by
    simp [findRecipe, omeletRecipe, hb]
  rw [extractSchedule, hr2]
  simp [extractDays, buildDayMeals, h1, h2]
  rfl

/-! ## Claims -/

/-- Claim C2: The pipeline tries, in order: the full model with
anti-repetition; the same-horizon model without anti-repetition; the
relaxed model rebuilt for each reduced horizon from `days-1` down to `1`
— stopping at the first attempt whose status is Optimal or Feasible and
recording its horizon. If every attempt is Infeasible the response is
`Infeasible` with no schedule. The pipeline consults the solver on no
model beyond these attempts, and every attempt keeps the full inventory
capacity and expiry constraint families. -/
theorem C2_relaxation_pipeline (S : Solver) (inv : Inventory)
    (recipes : List Recipe) (days : ℕ) (meals : List String) :
    (statusOk (S (buildModel inv recipes days meals true)).1 = true →
      runSolve S inv recipes days meals =
        ((S (buildModel inv recipes days meals true)).1, days,
         (S (buildModel inv recipes days meals true)).2)) ∧
    (statusOk (S (buildModel inv recipes days meals true)).1 = false →
     statusOk (S (buildModel inv recipes days meals false)).1 = true →
      runSolve S inv recipes days meals =
        ((S (buildModel inv recipes days meals false)).1, days,
         (S (buildModel inv recipes days meals false)).2)) ∧
    (∀ k : ℕ, k ∈ shrinkAttempts days ↔ 1 ≤ k ∧ k < days) ∧
    (∀ k : ℕ, k ∈ shrinkAttempts days →
      statusOk (S (buildModel inv recipes days meals true)).1 = false →
      statusOk (S (buildModel inv recipes days meals false)).1 = false →
      (∀ k2 ∈ shrinkAttempts days, k < k2 →
        statusOk (S (buildModel inv recipes k2 meals false)).1 = false) →
      statusOk (S (buildModel inv recipes k meals false)).1 = true →
      runSolve S inv recipes days meals =
        ((S (buildModel inv recipes k meals false)).1, k,
         (S (buildModel inv recipes k meals false)).2)) ∧
    ((S (buildModel inv recipes days meals true)).1 = .Infeasible →
     (S (buildModel inv recipes days meals false)).1 = .Infeasible →
     (∀ k ∈ shrinkAttempts days,
       (S (buildModel inv recipes k meals false)).1 = .Infeasible) →
      responseOf S inv recipes days meals = (.Infeasible, none)) ∧
    (∀ S2 : Solver,
      (∀ M ∈ attemptModels inv recipes days meals, S M = S2 M) →
      runSolve S inv recipes days meals =
        runSolve S2 inv recipes days meals) ∧
    (∀ p ∈ attemptPlans days, ∀ c ∈ invConstrs inv recipes p.2 meals,
      c ∈ (buildModel inv recipes p.2 meals p.1).constraints) := by
  refine ⟨?_, ?_, ?_, ?_, ?_, ?_, ?_⟩
  · intro h1
    rw [runSolve_eq, if_pos h1]
  · intro h1 h2
    rw [runSolve_eq, if_neg (by simp [h1]), if_pos h2]
  · intro k
    exact mem_shrinkAttempts
  · intro k hk h1 h2 hfail hok
    rw [runSolve_eq, if_neg (by simp [h1]), if_neg (by simp [h2]),
      shrinkLoop_first (shrinkAttempts_sorted days) hk hfail hok]
  · intro h1 h2 hall
    have hrun : runSolve S inv recipes days meals =
        (.Infeasible, days, (S (buildModel inv recipes days meals false)).2) := by
      rw [runSolve_eq, if_neg (by simp [h1, statusOk]),
        if_neg (by simp [h2, statusOk]),
        shrinkLoop_eq_none fun k hk => by simp [hall k hk, statusOk], h2]
    simp only [responseOf, hrun, statusOk]
    rfl
  · intro S2 h
    have hp : ∀ (bb : Bool) (kk : ℕ), (bb, kk) ∈ attemptPlans days →
        S (buildModel inv recipes kk meals bb) =
        S2 (buildModel inv recipes kk meals bb) := by
      intro bb kk hmem
      exact h _ (List.mem_map.mpr ⟨(bb, kk), hmem, rfl⟩)
    rw [runSolve_eq, runSolve_eq,
      hp true days (List.mem_cons_self _ _),
      hp false days (List.mem_cons_of_mem _ (List.mem_cons_self _ _)),
      shrinkLoop_congr fun k hk => hp false k
        (List.mem_cons_of_mem _ (List.mem_cons_of_mem _
          (List.mem_map.mpr ⟨k, hk, rfl⟩)))]
  · intro p _ c hc
    exact invConstrs_sub_constraints hc

/-- Witness for C2: under a solver whose first answer is Optimal, the
pipeline stops at the full model with the original horizon. -/
theorem C2_witness :
    runSolve okSolver eggsInv [omeletRecipe] 2 ["Breakfast"] =
      (.Optimal, 2, fun _ => (0 : ℚ)) :=
  (C2_relaxation_pipeline okSolver eggsInv [omeletRecipe] 2
    ["Breakfast"]).1 rfl

/-- Claim C3: For an inventory item whose `days_until_expiry` converts to
an integer `k`: if `k ≤ 0`, the expiry family forces `x(d,m,r) = 0` for
every slot and every recipe referencing the item (and only those); if
`0 < k < days`, it does so exactly for day indices `d ≥ k`, leaving days
`0..k-1` unconstrained by this family; every constraint of the family is
part of the built model. -/
theorem C3_expiry_cutoff (inv : Inventory) (recipes : List Recipe)
    (days : ℕ) (meals : List String) (b : Bool) (name : String)
    (f : ItemFields) (raw : ExpiryRaw) (k : ℤ)
    (hin : (name, ItemData.dict f) ∈ inv)
    (hraw : f.days_until_expiry = some raw)
    (hparse : parseExpiry raw = some k) :
    (k ≤ 0 → ∀ (d : ℕ) (m : String) (i : ℤ),
      (Constr.eq0 (d, m, i) ∈
          expiryConstrs days meals recipes name (.dict f) ↔
        d < days ∧ m ∈ meals ∧
          ∃ r ∈ recipes, r.id = i ∧
            (dictLookup name r.ingredients).isSome)) ∧
    (0 < k → k < (days : ℤ) → ∀ (d : ℕ) (m : String) (i : ℤ),
      (Constr.eq0 (d, m, i) ∈
          expiryConstrs days meals recipes name (.dict f) ↔
        k ≤ (d : ℤ) ∧ d < days ∧ m ∈ meals ∧
          ∃ r ∈ recipes, r.id = i ∧
            (dictLookup name r.ingredients).isSome)) ∧
    (∀ c ∈ expiryConstrs days meals recipes name (.dict f),
      c ∈ (buildModel inv recipes days meals b).constraints) := by
  refine ⟨?_, ?_, ?_⟩
  · intro hk d m i
    rw [expiryConstrs_dict_eq days meals recipes name f hraw hparse,
      if_pos hk]
    exact mem_expiryFamily_range_iff
  · intro hk0 hkd d m i
    rw [expiryConstrs_dict_eq days meals recipes name f hraw hparse,
      if_neg (by omega), if_pos hkd, mem_expiryFamily_iff]
    constructor
    · rintro ⟨⟨hlo, hhi⟩, h⟩
      exact ⟨by omega, by omega, h⟩
    · rintro ⟨hkle, hd, h⟩
      exact ⟨⟨by omega, by omega⟩, h⟩
  · intro c hc
    exact invConstrs_sub_constraints (expiryConstrs_sub_invConstrs hin hc)

/-- Witness for C3: with `days_until_expiry = 1` over 2 days, the milk
recipe's variable is forced to 0 on day 1. -/
theorem C3_witness :
    Constr.eq0 (1, "Breakfast", 0) ∈
      expiryConstrs 2 ["Breakfast"] [milkRecipe] "milk"
        (.dict ⟨some 5, none, some (.num 1)⟩) :=
  ((C3_expiry_cutoff milkInv [milkRecipe] 2 ["Breakfast"] true "milk"
      ⟨some 5, none, some (.num 1)⟩ (.num 1) 1 (by decide) rfl
      (by norm_num [parseExpiry, pyRound])).2.1 (by norm_num)
      (by norm_num) 1 "Breakfast" 0).mpr
    ⟨by norm_num, by norm_num, by decide, milkRecipe, by decide, rfl,
      by decide⟩

/-- Witness for C4: the optimal assignment of the worked scenario
consumes 1 egg, within the quantity 2. -/
theorem C4_witness :
    scheduleUsage [omeletRecipe]
      (extractSchedule pickFirstDay 2 ["Breakfast"] [omeletRecipe])
      "eggs" ≤ availableQty (.dict ⟨some 2, some 5, none⟩) :=
  C4_inventory_bound eggsInv [omeletRecipe] 2 ["Breakfast"] true
    pickFirstDay "eggs" (.dict ⟨some 2, some 5, none⟩) (by decide)
    pickFirstDay_sat (by decide)

/-- Claim C5: The anti-repetition family consists exactly of the
constraints `x(d,m,r) + x(d+1,m,r) ≤ 1` for each meal type, recipe and
consecutive day pair, and for a binary assignment it is equivalent to
forbidding the same recipe id at the same meal type on two consecutive
days — so it restricts nothing else (not non-consecutive reuse, not reuse
across meal types). -/
theorem C5_anti_repetition (days : ℕ) (meals : List String)
    (recipes : List Recipe) :
    (∀ c : Constr, c ∈ antiRepConstrs days meals recipes ↔
      ∃ d, d + 1 < days ∧ ∃ m ∈ meals, ∃ r ∈ recipes,
        c = Constr.le [((1 : ℚ), (d, m, r.id)),
          ((1 : ℚ), (d + 1, m, r.id))] 1) ∧
    (∀ σ : Assign, BinOn σ (tripleKeys days meals recipes) →
      (SatAll σ (antiRepConstrs days meals recipes) ↔
        ∀ d, d + 1 < days → ∀ m ∈ meals, ∀ r ∈ recipes,
          ¬(σ (d, m, r.id) = 1 ∧ σ (d + 1, m, r.id) = 1))) := by
  constructor
  · intro c
    exact mem_antiRepConstrs_iff
  · intro σ hbin
    constructor
    · intro hsat d hd m hm r hr ⟨h1, h2⟩
      have hmem : Constr.le [((1 : ℚ), (d, m, r.id)),
          ((1 : ℚ), (d + 1, m, r.id))] 1 ∈
          antiRepConstrs days meals recipes :=
        mem_antiRepConstrs_iff.mpr ⟨d, hd, m, hm, r, hr, rfl⟩
      have := hsat _ hmem
      simp only [constrHolds, evalLhs_cons, evalLhs_nil] at this
      rw [h1, h2] at this
      norm_num at this
    · intro h c hc
      obtain ⟨d, hd, m, hm, r, hr, rfl⟩ := mem_antiRepConstrs_iff.mp hc
      have h1 := hbin (d, m, r.id)
        (mem_tripleKeys (by omega) hm hr)
      have h2 := hbin (d + 1, m, r.id)
        (mem_tripleKeys (by omega) hm hr)
      have hnot := h d hd m hm r hr
      simp only [constrHolds, evalLhs_cons, evalLhs_nil]
      rcases h1 with h1 | h1 <;> rcases h2 with h2 | h2 <;>
        rw [h1, h2] <;> norm_num
      exact hnot ⟨h1, h2⟩

/-- Witness for C5: a concrete instance of the membership
characterization — the single consecutive-pair constraint of a 2-day,
one-meal, one-recipe model. -/
theorem C5_witness :
    Constr.le [((1 : ℚ), (0, "Breakfast", 0)),
      ((1 : ℚ), (1, "Breakfast", 0))] 1 ∈
      antiRepConstrs 2 ["Breakfast"] [omeletRecipe] :=
  (C5_anti_repetition 2 ["Breakfast"] [omeletRecipe]).1 _ |>.mpr
    ⟨0, by decide, "Breakfast", by decide, omeletRecipe, by decide, rfl⟩

/-- Claim C10: A numeric `days_until_expiry` (number or numeric string) is
not malformed: it converts by `float` then round-to-nearest (half to
even) and is applied as the cutoff — in particular `0.4` rounds to `0`
and forbids every use of the item. Only a value whose conversion raises
`ValueError`/`TypeError` makes the code skip that one item's expiry
constraints; the rest of the request then behaves exactly as if the
field were absent, so such a value never fails the request. -/
theorem C10_expiry_parsing :
    (∀ q : ℚ, parseExpiry (.num q) = some (pyRound q) ∧
      parseExpiry (.strNum q) = some (pyRound q)) ∧
    pyRound (2 / 5) = 0 ∧
    (∀ (days : ℕ) (meals : List String) (recipes : List Recipe)
      (name : String) (qv wv : Option ℚ) (d : ℕ) (m : String) (r : Recipe),
      d < days → m ∈ meals → r ∈ recipes →
      (dictLookup name r.ingredients).isSome →
      Constr.eq0 (d, m, r.id) ∈
        expiryConstrs days meals recipes name
          (.dict ⟨qv, wv, some (.num (2 / 5))⟩)) ∧
    (∀ (days : ℕ) (meals : List String) (recipes : List Recipe)
      (name : String) (qv wv : Option ℚ),
      expiryConstrs days meals recipes name
        (.dict ⟨qv, wv, some .malformed⟩) = []) ∧
    (∀ (S : Solver) (pre post : Inventory) (recipes : List Recipe)
      (days : ℕ) (meals : List String) (name : String) (qv wv : Option ℚ),
      responseOf S (pre ++ (name, .dict ⟨qv, wv, some .malformed⟩) :: post)
          recipes days meals =
        responseOf S (pre ++ (name, .dict ⟨qv, wv, none⟩) :: post)
          recipes days meals) := by
  have hround : pyRound (2 / 5) = 0 := by norm_num [pyRound]
  refine ⟨fun q => ⟨rfl, rfl⟩, hround, ?_, fun _ _ _ _ _ _ => rfl, ?_⟩
  · intro days meals recipes name qv wv d m r hd hm hr hsome
    have hparse : parseExpiry (.num (2 / 5)) = some 0 := by
      rw [parseExpiry, hround]
    rw [expiryConstrs_dict_eq days meals recipes name
      ⟨qv, wv, some (.num (2 / 5))⟩ rfl hparse, if_pos le_rfl]
    exact mem_expiryFamily_range_iff.mpr ⟨hd, hm, r, hr, rfl, hsome⟩
  · intro S pre post recipes days meals name qv wv
    simp only [responseOf,
      runSolve_malformed_eq S pre post recipes days meals name qv wv]

/-- Witness for C10: an item with `days_until_expiry = 0.4` is cut off
at day 0, forbidding its recipe on the single day of a 1-day horizon. -/
theorem C10_witness :
    Constr.eq0 (0, "Breakfast", 0) ∈
      expiryConstrs 1 ["Breakfast"] [milkRecipe] "milk"
        (.dict ⟨some 5, none, some (.num (2 / 5))⟩) :=
  C10_expiry_parsing.2.2.1 1 ["Breakfast"] [milkRecipe] "milk" (some 5)
    none 0 "Breakfast" milkRecipe (by decide) (by decide) (by decide)
    (by decide)

/-- Claim C1: In the built model, the objective coefficient of the binary
variable `x(d,m,r)` is
`recipeValue(r) * 100.0 + 10000.0 * (days - d + 1)^2`, where
`recipeValue(r)` sums `expiryWeight * quantityNeeded` over the recipe's
ingredients present in inventory (weight defaulting to 1.0, absent items
contributing 0). Stated for inputs whose recipe ids and meal types are
unique, as the data model requires. -/
theorem C1_objective_coefficient (inv : Inventory) (recipes : List Recipe)
    (days : ℕ) (meals : List String) (b : Bool) (d : ℕ) (m : String)
    (r : Recipe) (hd : d < days) (hm : m ∈ meals) (hr : r ∈ recipes)
    (hmnd : meals.Nodup) (hrnd : (recipes.map Recipe.id).Nodup) :
    coeffOf (buildModel inv recipes days meals b).objective (d, m, r.id) =
      recipeValueSpec inv r * 100 + 10000 * ((days : ℚ) - d + 1) ^ 2 := by
  have hobj : (buildModel inv recipes days meals b).objective =
      objectiveTerms inv recipes days meals := rfl
  rw [hobj, objectiveTerms, coeffOf_flatMap]
  rw [sum_map_nodup_eq (List.range days) (List.nodup_range days) d
    (List.mem_range.mpr hd) _ (by
      intro d2 _ hne
      apply coeffOf_eq_zero
      intro t ht
      simp only [List.mem_flatMap, List.mem_map] at ht
      obtain ⟨m2, _, r2, _, rfl⟩ := ht
      simp [hne])]
  rw [coeffOf_flatMap]
  rw [sum_map_nodup_eq meals hmnd m hm _ (by
      intro m2 _ hne
      apply coeffOf_eq_zero
      intro t ht
      simp only [List.mem_map] at ht
      obtain ⟨r2, _, rfl⟩ := ht
      simp [hne])]
  rw [coeffOf_map_recipes d m _ hr rfl hrnd, recipe_value_eq_spec]
  have hcast : (((days - d + 1) ^ 2 : ℕ) : ℚ) =
      ((days : ℚ) - d + 1) ^ 2 := by
    push_cast [Nat.cast_sub hd.le]
    ring
  rw [hcast]

/-- Witness for C1 at the spec's worked scenario, day 0. -/
theorem C1_witness :
    coeffOf (buildModel eggsInv [omeletRecipe] 2 ["Breakfast"]
        true).objective (0, "Breakfast", 0) =
      recipeValueSpec eggsInv omeletRecipe * 100 +
        10000 * ((2 : ℚ) - 0 + 1) ^ 2 :=
  C1_objective_coefficient eggsInv [omeletRecipe] 2 ["Breakfast"] true 0
    "Breakfast" omeletRecipe (by decide) (by decide) (by decide)
    (by decide) (by decide)

/-- Claim C6: Schedule extraction iterates days `0..effectiveDays-1` and,
within a day, the meal types in caller order; each slot takes the first
recipe in catalog order whose variable value equals 1 and searches no
further; a day with zero meals is omitted. Stated as: the extraction loop
equals its description by `List.find?` over the catalog and
`List.filterMap` over days and meal types. -/
theorem C6_extraction (σ : Assign) (days : ℕ) (meals : List String)
    (recipes : List Recipe) :
    extractSchedule σ days meals recipes =
      extractScheduleSpec σ days meals recipes := by
  rw [extractSchedule, extractScheduleSpec,
    extractDays_eq_filterMap]
  refine List.filterMap_congr fun d _ => ?_
  rw [buildDayMeals_eq_filterMap]

/-- Claim C7, counterexample: The claimed response — a schedule covering
both days of the worked scenario, each using recipe 0 — corresponds to
the assignment valuing both variables 1; that assignment violates the
first model's anti-repetition constraint, which the chosen (feasible)
first attempt keeps, so the claimed response is not reachable. -/
theorem C7_counterexample :
    extractSchedule allOnes 2 ["Breakfast"] [omeletRecipe] =
      [⟨"Day 1", [⟨"Breakfast", 0⟩]⟩, ⟨"Day 2", [⟨"Breakfast", 0⟩]⟩] ∧
    Constr.le [((1 : ℚ), (0, "Breakfast", 0)),
        ((1 : ℚ), (1, "Breakfast", 0))] 1 ∈
      (buildModel eggsInv [omeletRecipe] 2 ["Breakfast"] true).constraints ∧
    ¬ SatAll allOnes
      (buildModel eggsInv [omeletRecipe] 2 ["Breakfast"] true).constraints := by
  refine ⟨by decide, by decide, ?_⟩
  intro h
  have := h (Constr.le [((1 : ℚ), (0, "Breakfast", 0)),
    ((1 : ℚ), (1, "Breakfast", 0))] 1) (by decide)
  simp [constrHolds, evalLhs, allOnes] at this
  norm_num at this

/-- Claim C7, amended: For the worked scenario (eggs ×2, one omelet
recipe, 2 days, one meal), any solver returning an ok status and a true
optimum for the first model makes the endpoint stop at that fully
constrained attempt and return a schedule covering only Day 1, with
recipe 0 used once; both days cannot be covered because anti-repetition
is active in the chosen model. -/
theorem C7_scenario (S : Solver) (st : Status) (σ : Assign)
    (hS : S (buildModel eggsInv [omeletRecipe] 2 ["Breakfast"] true) =
      (st, σ))
    (hok : statusOk st = true)
    (hopt : OptimalFor σ
      (buildModel eggsInv [omeletRecipe] 2 ["Breakfast"] true)) :
    responseOf S eggsInv [omeletRecipe] 2 ["Breakfast"] =
      (st, some [⟨"Day 1", [⟨"Breakfast", 0⟩]⟩]) := by
  have hge : (90500 : ℚ) ≤ evalLhs σ
      (buildModel eggsInv [omeletRecipe] 2 ["Breakfast"] true).objective := by
    have := hopt.2.2 pickFirstDay (by decide) pickFirstDay_sat
    rw [c7_eval_pick] at this
    exact this
  have h0 := hopt.1 (0, "Breakfast", 0) (by decide)
  have h1 := hopt.1 (1, "Breakfast", 0) (by decide)
  have hsum := c7_sat_antiRep hopt.2.1
  have hvals : σ (0, "Breakfast", 0) = 1 ∧ σ (1, "Breakfast", 0) = 0 := by
    rw [c7_obj_eq] at hge
    simp only [evalLhs, List.map_cons, List.map_nil, List.sum_cons,
      List.sum_nil] at hge
    rcases h0 with h0 | h0 <;> rcases h1 with h1 | h1 <;>
      rw [h0, h1] at hge <;> norm_num at hge
    · exact ⟨h0, h1⟩
    · rw [h0, h1] at hsum
      norm_num at hsum
  obtain ⟨ha, hb⟩ := hvals
  have hrun : runSolve S eggsInv [omeletRecipe] 2 ["Breakfast"] =
      (st, 2, σ) := by
    rw [runSolve_eq, hS]
    simp [hok]
  simp only [responseOf, hrun]
  rw [if_pos hok, extract_pickFirst ha hb]

/-- Witness for C7's amended theorem: the optimum-returning oracle
produces exactly the one-day schedule. -/
theorem C7_witness :
    responseOf c7Solver eggsInv [omeletRecipe] 2 ["Breakfast"] =
      (.Optimal, some [⟨"Day 1", [⟨"Breakfast", 0⟩]⟩]) :=
  C7_scenario c7Solver .Optimal pickFirstDay rfl rfl
    ⟨by decide, pickFirstDay_sat, fun τ hb hs => by
      rw [c7_eval_pick]
      exact c7_max τ hb hs⟩

/-- Claim C8: On any pre-validated input whose inventory quantities are all
non-negative, the zero assignment satisfies every constraint of the
fully-constrained first model, so — for any solver that reports success
on satisfiable models — the first attempt succeeds: the pipeline stops
there and the relaxed tier, the shrinking tier and the Infeasible
response are unreachable. -/
theorem C8_first_attempt_feasible (S : Solver) (inv : Inventory)
    (recipes : List Recipe) (days : ℕ) (meals : List String)
    (hinv : inv ≠ []) (hrec : recipes ≠ []) (hmeals : meals ≠ [])
    (hd1 : 1 ≤ days) (hd7 : days ≤ 7)
    (hq : ∀ p ∈ inv, 0 ≤ availableQty p.2)
    (hS : ∀ M : Model,
      (∃ σ : Assign, BinOn σ M.vars ∧ SatAll σ M.constraints) →
      statusOk (S M).1 = true) :
    SatAll (fun _ => (0 : ℚ))
      (buildModel inv recipes days meals true).constraints ∧
    runSolve S inv recipes days meals =
      ((S (buildModel inv recipes days meals true)).1, days,
       (S (buildModel inv recipes days meals true)).2) ∧
    statusOk (runSolve S inv recipes days meals).1 = true ∧
    responseOf S inv recipes days meals =
      ((S (buildModel inv recipes days meals true)).1,
       some (extractSchedule (S (buildModel inv recipes days meals true)).2
         days meals recipes)) := by
  have hsat := @zero_satisfies inv recipes days meals true hq
  have hbin : BinOn (fun _ => (0 : ℚ))
      (buildModel inv recipes days meals true).vars :=
    fun _ _ => Or.inl rfl
  have hok := hS _ ⟨_, hbin, hsat⟩
  have hrun : runSolve S inv recipes days meals =
      ((S (buildModel inv recipes days meals true)).1, days,
       (S (buildModel inv recipes days meals true)).2) := by
    rw [runSolve_eq, if_pos hok]
  refine ⟨hsat, hrun, ?_, ?_⟩
  · rw [hrun]
    exact hok
  · simp only [responseOf, hrun]
    rw [if_pos hok]

/-- Witness for C8: the zero-assignment feasibility and first-attempt
stop at the spec's worked scenario, under a success-reporting solver. -/
theorem C8_witness :
    statusOk (runSolve okSolver eggsInv [omeletRecipe] 2
      ["Breakfast"]).1 = true :=
  (C8_first_attempt_feasible okSolver eggsInv [omeletRecipe] 2
    ["Breakfast"] (by decide) (by decide) (by decide) (by decide)
    (by decide) (by decide) (fun _ _ => rfl)).2.2.1

/-- Claim C9, counterexample: With duplicated meal types in the caller's
list, the extracted schedule holds two entries for the same
`(day, meal type)` slot: day 0 with meal type `"Breakfast"` appears twice. -/
theorem C9_counterexample :
    extractSchedule allOnes 1 ["Breakfast", "Breakfast"] [omeletRecipe] =
      [⟨"Day 1", [⟨"Breakfast", 0⟩, ⟨"Breakfast", 0⟩]⟩] ∧
    (([(⟨"Breakfast", 0⟩ : MealEntry), ⟨"Breakfast", 0⟩].filter fun me =>
      me.type = "Breakfast").length = 2) := by
  constructor <;> decide

/-- Claim C9, amended: For every solver assignment — with no exclusivity
assumption — each extracted day holds at most `meals.count m` entries of
meal type `m` (so at most one per slot whenever the caller's meal types
are distinct), and every `recipeId` in the output is the id of some
catalog recipe. -/
theorem C9_extraction_slots (σ : Assign) (days : ℕ)
    (meals : List String) (recipes : List Recipe) :
    (∀ de ∈ extractSchedule σ days meals recipes, ∀ s : String,
      (de.meals.filter fun me => me.type = s).length ≤ meals.count s) ∧
    (∀ de ∈ extractSchedule σ days meals recipes, ∀ me ∈ de.meals,
      me.recipeId ∈ recipes.map Recipe.id) := by
  constructor
  · intro de hde s
    obtain ⟨d, _, he⟩ := mem_extractDays hde
    rw [he]
    exact buildDayMeals_filter_length σ d recipes meals s
  · intro de hde me hme
    obtain ⟨d, _, he⟩ := mem_extractDays hde
    rw [he] at hme
    exact buildDayMeals_recipeId_mem hme

/-- Witness for C9's amended theorem at a concrete schedule entry. -/
theorem C9_witness :
    ((⟨"Day 1", [⟨"Breakfast", 0⟩]⟩ : DayEntry).meals.filter fun me =>
      me.type = "Breakfast").length ≤ ["Breakfast"].count "Breakfast" :=
  (C9_extraction_slots allOnes 1 ["Breakfast"] [omeletRecipe]).1
    ⟨"Day 1", [⟨"Breakfast", 0⟩]⟩ (by decide) "Breakfast"

end WasteNot
